import Mathlib

/-!
Verification of the source-indexing core of the `nasal-ls` language server
(`src/ls.rs`): the scope tracker (`Library::process_scopes`), the file store
(`Library::add_file` / `get_file`) and the definition registry
(`Definitions::add` / `matches` / `definition`).

Rust values are embedded as follows: `String` text becomes `List Char`
(the character sequence), `u32`/`usize` counters become `Nat` (they only ever
grow by one per character, so no overflow is reachable on any input a proof
below evaluates), `LinkedList` becomes `List` (with `push_front` = cons;
where the code uses `push_back`/`pop_back` as a stack, the list head models
the back), `HashMap` becomes a function into `Option`, `Result<T, String>`
becomes `Except String T`, and a reachable `panic!` becomes `Option.none`.
-/

set_option maxRecDepth 4000

deriving instance DecidableEq for Except

/-- The character `{`, written by code so that brace characters never appear
in string literals. -/
def lbrace : Char := Char.ofNat 123

/-- The character `}`. -/
def rbrace : Char := Char.ofNat 125

/-- Rust `char::is_whitespace`: the Unicode `White_Space` property,
enumerated explicitly by code point (0009-000D, 0020, 0085, 00A0, 1680,
2000-200A, 2028, 2029, 202F, 205F, 3000). -/
def rust_is_whitespace (c : Char) : Bool :=
  (0x09 <= c.toNat && c.toNat <= 0x0d) || c.toNat = 0x20 ||
  c.toNat = 0x85 || c.toNat = 0xa0 || c.toNat = 0x1680 ||
  (0x2000 <= c.toNat && c.toNat <= 0x200a) ||
  c.toNat = 0x2028 || c.toNat = 0x2029 || c.toNat = 0x202f ||
  c.toNat = 0x205f || c.toNat = 0x3000

/-- Rust `str::lines` splits at `\n`; a fragment terminated by `\n` has one
trailing `\r` stripped. `stripCr` is that stripping step. -/
def stripCr (l : List Char) : List Char :=
  if l.getLast? = some '\r' then l.dropLast else l

/-- Split a text at every `\n`: returns the first fragment and the list of
later fragments (none of which is `\n`-terminated-inclusive; the very last
fragment is the tail after the final `\n`, possibly empty). -/
def splitFrags : List Char → List Char × List (List Char)
  | [] => ([], [])
  | c :: cs =>
    let p := splitFrags cs
    if c = '\n' then ([], p.1 :: p.2) else (c :: p.1, p.2)

/-- Reassemble the fragments the way Rust `str::lines` yields them: every
fragment except the last was `\n`-terminated and gets `stripCr`; a final
empty fragment (text ending in `\n`) yields no extra line. -/
def joinFrags (h : List Char) : List (List Char) → List (List Char)
  | [] => if h = [] then [] else [h]
  | h2 :: rest => stripCr h :: joinFrags h2 rest

/-- Rust `str::lines` over a character sequence.  `""` has no lines. -/
def rustLines (t : List Char) : List (List Char) :=
  match t with
  | [] => []
  | _ :: _ => joinFrags (splitFrags t).1 (splitFrags t).2

/-- `src/ls.rs` `Initscope` (line 169): a pending open brace, carrying its
start line and its reserved index in the output sequence. -/
structure Initscope where
  start : Nat
  idx : Nat
  deriving DecidableEq

/-- The mutable local state of `Library::process_scopes` (lines 95-130):
the `failure` flag, the line counter, the next output index, the stack of
pending scopes (`init_scopes`, head = `LinkedList` back, i.e. most recent),
and the output slots (`inter_scopes`). -/
structure ScanState where
  failure : Option String
  line_number : Nat
  scope_idx : Nat
  init_scopes : List Initscope
  inter_scopes : List (Option (Nat × Nat))
  deriving DecidableEq

/-- The initial state of the scan (lines 96-102). -/
def initState : ScanState := ⟨none, 0, 0, [], []⟩

/-- One character of the inner `for_each` (lines 107-126).  On `{` push a
pending scope and reserve a `none` slot; on `}` pop the most recent pending
scope and resolve its slot via the `split_off`/`pop_front`/`push_front`/
`append` splice, or record the `"Unmatched "` failure if none is pending;
other characters are ignored. -/
def process_char (st : ScanState) (c : Char) : ScanState :=
  if c = lbrace then
    { st with
      init_scopes := ⟨st.line_number, st.scope_idx⟩ :: st.init_scopes,
      inter_scopes := st.inter_scopes ++ [none],
      scope_idx := st.scope_idx + 1 }
  else if c = rbrace then
    match st.init_scopes with
    | scope :: rest =>
      { st with
        init_scopes := rest,
        inter_scopes :=
          st.inter_scopes.take scope.idx ++
            some (scope.start, st.line_number) ::
              (st.inter_scopes.drop scope.idx).tail }
    | [] => { st with failure := some "Unmatched " }
  else st

/-- One line of the outer `for_each` (lines 104-129).
`line.trim_start().get(..1)` is `Some` exactly when the trimmed line is
nonempty and its first character is a single UTF-8 byte; only then is the
line processed and only then does `line_number` advance.  If that first
character is `#`, the line's braces are skipped but the counter still
advances. -/
def process_line (st : ScanState) (line : List Char) : ScanState :=
  match line.dropWhile rust_is_whitespace with
  | [] => st
  | c :: _ =>
    if c.utf8Size = 1 then
      let st' := if c = '#' then st else line.foldl process_char st
      { st' with line_number := st'.line_number + 1 }
    else st

/-- The whole line scan of `process_scopes` over a list of lines. -/
def scanLines (ls : List (List Char)) : ScanState :=
  ls.foldl process_line initState

/-- The final phase of `process_scopes` (lines 131-147): every still
unresolved slot overwrites the failure with `"Scope Parse Failed"` (and is
rendered as `[0, 0]`); the function errs with the last recorded failure, or
returns the resolved spans. -/
def finishScan (st : ScanState) : Except String (List (Nat × Nat)) :=
  let failure :=
    if st.inter_scopes.any (fun o => o.isNone) then some "Scope Parse Failed"
    else st.failure
  match failure with
  | some e => Except.error e
  | none => Except.ok (st.inter_scopes.map (fun o => o.getD (0, 0)))

/-- `Library::process_scopes` (lines 95-148) as a function from the file
text to the computed scope spans (the value stored into `file.scopes` on
success) or the error string. -/
def process_scopes (t : List Char) : Except String (List (Nat × Nat)) :=
  finishScan (scanLines (rustLines t))

/-! ## File store: `File`, `Library::add_file`, `Library::get_file` -/

/-- `src/ls.rs` `File` (lines 25-31). -/
structure File where
  uri : String
  text : List Char
  ast : String
  scopes : List (Nat × Nat)
  deriving DecidableEq

/-- `File::default` (lines 32-42). -/
def File.defaultFile : File := ⟨"", [], "", []⟩

/-- `Library::process_scopes(&mut file)` (lines 95-148): returns the
`Result<(), String>` and the updated file; `file.scopes` is written only on
success. -/
def process_scopes_file (f : File) : Except String Unit × File :=
  match process_scopes f.text with
  | Except.error e => (Except.error e, f)
  | Except.ok spans => (Except.ok (), { f with scopes := spans })

/-- `Library` (lines 54-56): the catalog `HashMap<String, File>` modelled
extensionally. -/
structure Library where
  catalog : String → Option File

/-- `Library::new` (lines 63-73). -/
def Library.new : Library := ⟨fun _ => none⟩

/-- `Library::add_file` (lines 74-82): builds the `File`, runs
`process_scopes` on it, inserts it into the catalog unconditionally, and
returns the scope result. -/
def Library.add_file (lib : Library) (filepath : String) (text : List Char) :
    Except String Unit × Library :=
  let file : File := { uri := filepath, text := text, ast := "", scopes := [] }
  let res := process_scopes_file file
  (res.1, ⟨fun k => if k = filepath then some res.2 else lib.catalog k⟩)

/-- `Library::get_file` (lines 83-86). -/
def Library.get_file (lib : Library) (filepath : String) : Option File :=
  lib.catalog filepath

/-! ## Definition registry: `NasalLspType`, `Definitions` -/

/-- `lsp_types::Position` (zero-based line/character). -/
structure Position where
  line : Nat
  character : Nat
  deriving DecidableEq

/-- `lsp_types::Range`: `startP`/`endP` model the `start`/`end` fields. -/
structure Range where
  startP : Position
  endP : Position
  deriving DecidableEq

/-- `lsp_types::Location`: a URI plus a range. -/
structure Location where
  uri : String
  range : Range
  deriving DecidableEq

/-- `src/ls.rs` `NasalLspType` (lines 177-183). -/
inductive NasalLspType where
  | FuncDef (loc : Location)
  | IdentDef (loc : Location)
  | Func (loc : Location)
  | IdentRef (loc : Location)
  deriving DecidableEq

/-- `NasalLspType::location` (lines 184-193). -/
def NasalLspType.location : NasalLspType → Location
  | .Func loc => loc
  | .IdentRef loc => loc
  | .FuncDef loc => loc
  | .IdentDef loc => loc

/-- `list_search` (lines 272-287): fold that keeps the first node whose
location equals `loc`. -/
def list_search (list : List NasalLspType) (loc : Location) : Option Location :=
  list.foldl
    (fun answer node =>
      match answer with
      | some ans => some ans
      | none => if node.location = loc then some node.location else none)
    none

/-- `Definitions` (lines 174-176): `defs: HashMap<String, LinkedList<NasalLspType>>`,
the `LinkedList` as a `List` whose head is the front (most recently pushed). -/
structure Definitions where
  defs : String → Option (List NasalLspType)

/-- The empty registry (`Definitions` with an empty map). -/
def Definitions.empty : Definitions := ⟨fun _ => none⟩

/-- `Definitions::new_list` (lines 230-235): `insert(key, LinkedList::new())`,
then `panic!` (modelled as `none`) when the insert returned an old value,
i.e. when the key was already present. -/
def Definitions.new_list (d : Definitions) (key : String) : Option Definitions :=
  match d.defs key with
  | some _ => none
  | none => some ⟨fun k => if k = key then some [] else d.defs k⟩

/-- `Definitions::add` (lines 236-246): when a list exists for `key`, push
`def_` at the front unless `list_search` already finds its location; when no
list exists, only `new_list(key)` is called — the occurrence itself is
dropped. -/
def Definitions.add (d : Definitions) (key : String) (def_ : NasalLspType) :
    Option Definitions :=
  match d.defs key with
  | some list =>
    some
      (if (list_search list def_.location).isNone then
        ⟨fun k => if k = key then some (def_ :: list) else d.defs k⟩
      else d)
  | none => d.new_list key

/-- `Definitions::matches` (lines 247-250). -/
def Definitions.matches (d : Definitions) (key : String) :
    Option (List NasalLspType) :=
  d.defs key

/-- `Definitions::definition` (lines 251-270): on a known key, fold over the
list starting from `Err("No Values")`; the fold body discards the
accumulator (its two `let _` bindings are dead) and yields `Ok(node)`, so
the result is the last node in front-to-back order, regardless of kind and
of `loc`. -/
def Definitions.definition (d : Definitions) (key : String) (_loc : Location) :
    Except String NasalLspType :=
  match d.matches key with
  | some list =>
    match
      list.foldl (fun _res node => Except.ok node)
        (Except.error "No Values" : Except String NasalLspType)
    with
    | Except.ok nasaltyperef => Except.ok nasaltyperef
    | Except.error a => Except.error a
  | none => Except.error ("No definition exists for ident:" ++ key)

/-- A concrete well-formed location used by the concrete evaluations. -/
def locA : Location := ⟨"file:///a.nas", ⟨⟨0, 0⟩, ⟨1, 2⟩⟩⟩

/-- A second concrete location. -/
def locB : Location := ⟨"file:///a.nas", ⟨⟨3, 0⟩, ⟨4, 2⟩⟩⟩

/-- A third concrete location, used as a query site. -/
def locQ : Location := ⟨"file:///a.nas", ⟨⟨7, 0⟩, ⟨8, 2⟩⟩⟩


/-- Run a whole sequence of `Definitions::add` calls from the empty
registry, propagating a `panic!` (modelled as `none`) if one ever fires. -/
def run_adds (ops : List (String × NasalLspType)) : Option Definitions :=
  ops.foldl (fun acc p => acc.bind (fun d => d.add p.1 p.2)) (some Definitions.empty)

/-! ## Specification-side definitions used to state the general claims -/

/-- Number of unresolved (`none`) output slots. -/
def countNone (l : List (Option (Nat × Nat))) : Nat :=
  l.countP (fun o => o.isNone)

/-- The effect of one character on the height of the pending-scope stack:
`{` pushes, `}` pops (saturating at zero, as `pop_back` on an empty list
leaves it empty), everything else is ignored. -/
def hstep (h : Nat) (c : Char) : Nat :=
  if c = lbrace then h + 1 else if c = rbrace then h - 1 else h

/-- Starting from stack height `h`, every `}` in the character stream finds
a nonempty stack. -/
def heightsOk (h : Nat) : List Char → Bool
  | [] => true
  | c :: cs =>
    (if c = rbrace then decide (0 < h) else true) && heightsOk (hstep h c) cs

/-- The stack height after a character stream, starting from `h`. -/
def finalHeight (h : Nat) : List Char → Nat
  | [] => h
  | c :: cs => finalHeight (hstep h c) cs

/-- Every line consists solely of brace characters. -/
def lineBraces (l : List Char) : Bool :=
  l.all (fun c => c = lbrace || c = rbrace)

/-- The text consists solely of braces and newlines. -/
def onlyBraceNl (t : List Char) : Bool :=
  t.all (fun c => c = lbrace || c = rbrace || c = '\n')

/-- The text's brace stream is balanced: no `}` underflows and all `{` are
closed at the end. -/
def balancedBraces (t : List Char) : Bool :=
  heightsOk 0 (t.filter (fun c => c ≠ '\n')) &&
    decide (finalHeight 0 (t.filter (fun c => c ≠ '\n')) = 0)

/-- Height-and-underflow tracker mirroring `process_char`: the Boolean is
set when a `}` is met with height zero (the situation in which the code
records the `"Unmatched "` failure). -/
def dstep (hf : Nat × Bool) (c : Char) : Nat × Bool :=
  if c = lbrace then (hf.1 + 1, hf.2)
  else if c = rbrace then (hf.1 - 1, hf.2 || decide (hf.1 = 0))
  else hf

/-- Line-level wrapper of `dstep`, skipping exactly the lines that
`process_line` skips. -/
def dline (hf : Nat × Bool) (line : List Char) : Nat × Bool :=
  match line.dropWhile rust_is_whitespace with
  | [] => hf
  | c :: _ =>
    if c.utf8Size = 1 then (if c = '#' then hf else line.foldl dstep hf) else hf

/-- The text contains, on a processed non-comment line, a `}` encountered
while no opening brace is pending. -/
def underflows (t : List Char) : Bool :=
  ((rustLines t).foldl dline (0, false)).2

/-- During the scan the failure slot is either unset or holds the
`"Unmatched "` message (the only failure written inside the loop). -/
def FailOk (st : ScanState) : Prop :=
  st.failure = none ∨ st.failure = some "Unmatched "

/-- Coupling between the scan state and the height/underflow tracker. -/
def Cpl (st : ScanState) (hf : Nat × Bool) : Prop :=
  hf.1 = st.init_scopes.length ∧ (hf.2 = true → st.failure.isSome = true) ∧ FailOk st

/-- A pending scope is consistent with the output slots: its reserved index
is in range and still unresolved, and its start line is not in the future. -/
def StackEntryOk (st : ScanState) (s : Initscope) : Prop :=
  s.idx < st.inter_scopes.length ∧
    st.inter_scopes.get? s.idx = some none ∧ s.start ≤ st.line_number

/-- The scan invariant on balanced input: no failure recorded, `scope_idx`
equals the number of reserved slots, every pending scope is consistent,
reserved indices strictly decrease down the stack (the most recent is
largest), the unresolved slots are counted by the stack height, and every
resolved span is ordered. -/
def ScanInv (st : ScanState) : Prop :=
  st.failure = none ∧
  st.scope_idx = st.inter_scopes.length ∧
  (∀ s ∈ st.init_scopes, StackEntryOk st s) ∧
  st.init_scopes.Pairwise (fun a b => b.idx < a.idx) ∧
  countNone st.inter_scopes = st.init_scopes.length ∧
  (∀ o ∈ st.inter_scopes, ∀ a b : Nat, o = some (a, b) → a ≤ b)

/-- The lines of a text, each with `#` prepended — the lines of the text
obtained by prefixing every line with `#`. -/
def commented_lines (t : List Char) : List (List Char) :=
  (rustLines t).map (fun l => '#' :: l)

/-! ## Claim theorems on the registry and the file store -/

/-- Claim C1 (code bug): the claim says a single `Definitions::add` on a
fresh name both creates the per-name set and inserts the occurrence, so
that `matches` then returns a set containing an occurrence at its location.
In the code, the `None` branch of `add` only calls `new_list` and discards
`def`: after one `add` on the fresh name `"foo"`, `matches "foo"` is
`some []` — the occurrence was dropped. -/
theorem add_drops_first_occurrence :
    (Definitions.empty.add "foo" (NasalLspType.IdentDef locA)).map
      (fun d => d.matches "foo") = some (some []) := by decide

/-- Claim C3 (code bug): the claim says `Definitions::definition` fails with
a not-found error when the recorded occurrences for a name are all
reference-kind.  In the code the fold ignores kinds: recording two
`IdentRef` occurrences under `"x"` (the first is dropped by the C1 bug, the
second lands in the list) makes `definition "x" locQ` return
`Ok(IdentRef locB)` — a reference-kind occurrence — instead of an error. -/
theorem definition_returns_reference_kind :
    ((Definitions.empty.add "x" (NasalLspType.IdentRef locA)).bind
        (fun d => d.add "x" (NasalLspType.IdentRef locB))).map
      (fun d => d.definition "x" locQ) =
    some (Except.ok (NasalLspType.IdentRef locB)) := by decide

/-- Claim C4 (code bug): the claim says every line of the text — including
blank lines — receives the next zero-based line number, so spans carry the
indices of the brace lines in the full text.  In the code `line_number += 1`
sits inside the `if let` that requires a nonempty trimmed line, so the blank
middle line of `"{\n\n}"` is never counted: the closing brace sits on text
line 2 but the span ends at 1. -/
theorem blank_line_not_counted :
    process_scopes [lbrace, '\n', '\n', rbrace] = Except.ok [(0, 1)] := by decide

/-- Counterexample to claim C6: the spec example says `"{\n#{\n}\n"` fails
with the unterminated-scope error; in fact the scan succeeds, because the
`}` on line 2 pops the `{` of line 0 (only the comment line's brace is
ignored). -/
theorem comment_brace_example_succeeds :
    (process_scopes [lbrace, '\n', '#', lbrace, '\n', rbrace, '\n']).isOk = true := by
  decide

/-- Claim C6 (amended): on the text `"{\n#{\n}\n"` `process_scopes` succeeds
and returns the single span `(0, 2)`: the comment line's `{` is ignored and
the `}` on line 2 closes the real `{` of line 0. -/
theorem comment_brace_example_spans :
    process_scopes [lbrace, '\n', '#', lbrace, '\n', rbrace, '\n'] =
      Except.ok [(0, 2)] := by decide

/-- Claim C7: on the four-line text `"{\n{\n}\n}\n"` `process_scopes`
succeeds with exactly the two spans in original opening order: the outer
`(0, 3)` first, then the inner `(1, 2)`. -/
theorem nested_example_spans :
    process_scopes [lbrace, '\n', lbrace, '\n', rbrace, '\n', rbrace, '\n'] =
      Except.ok [(0, 3), (1, 2)] := by decide

/-- Claim C8: `Library::add_file` stores the `File` record unconditionally:
afterwards `get_file` returns a record with the given text whose scope list
is the computed spans on success and stays empty on failure, and `add_file`
returns exactly the scope result.  The insertion is never aborted. -/
theorem add_file_always_stores (lib : Library) (filepath : String) (text : List Char) :
    (lib.add_file filepath text).2.get_file filepath =
      some { uri := filepath, text := text, ast := "",
             scopes :=
               match process_scopes text with
               | Except.ok s => s
               | Except.error _ => [] } ∧
    (lib.add_file filepath text).1 =
      (match process_scopes text with
       | Except.ok _ => Except.ok ()
       | Except.error e => Except.error e) := by
  unfold Library.add_file Library.get_file process_scopes_file
  cases h : process_scopes text <;> simp [h]

/-- `Definitions::add`, for any state of the registry, never reaches the
`panic!` inside `new_list` (modelled as returning `none`). -/
theorem add_isSome (d : Definitions) (key : String) (v : NasalLspType) :
    (d.add key v).isSome := by
  unfold Definitions.add Definitions.new_list
  cases h : d.defs key <;> simp [h]

/-- Helper for C10: the fold over any suffix of adds stays `some`. -/
theorem foldl_adds_isSome (ops : List (String × NasalLspType)) :
    ∀ d : Definitions,
      (ops.foldl (fun acc p => acc.bind (fun d => d.add p.1 p.2)) (some d)).isSome := by
  induction ops with
  | nil => intro d; simp
  | cons p rest ih =>
    intro d
    have h1 : (List.foldl (fun acc p => acc.bind (fun d => d.add p.1 p.2))
        (some d) (p :: rest)) =
        rest.foldl (fun acc p => acc.bind (fun d => d.add p.1 p.2)) (d.add p.1 p.2) := by
      simp [List.foldl_cons]
    rw [h1]
    obtain ⟨d', hd'⟩ := Option.isSome_iff_exists.mp (add_isSome d p.1 p.2)
    rw [hd']
    exact ih d'

/-- Claim C10: for every sequence of `Definitions::add` calls starting from
the empty registry, the `panic!` inside `new_list` is unreachable: `add`
calls `new_list` only on a key with no entry, so the whole run always
produces a registry. -/
theorem run_adds_never_panics (ops : List (String × NasalLspType)) :
    (run_adds ops).isSome = true := by
  unfold run_adds
  exact foldl_adds_isSome ops Definitions.empty

/-! ## Comment lines: claim C9 -/

/-- A line starting with `#` is counted but otherwise ignored. -/
theorem process_line_hash (st : ScanState) (l : List Char) :
    process_line st ('#' :: l) = { st with line_number := st.line_number + 1 } := by
  have hw : rust_is_whitespace '#' = false := by decide
  have hs : ('#' : Char).utf8Size = 1 := by decide
  simp [process_line, List.dropWhile_cons, hw, hs]

/-- Folding the scan over comment-prefixed lines only advances the line
counter. -/
theorem foldl_hash_lines (ls : List (List Char)) :
    ∀ st : ScanState,
      (ls.map (fun l => '#' :: l)).foldl process_line st =
        { st with line_number := st.line_number + ls.length } := by
  induction ls with
  | nil => intro st; simp
  | cons l rest ih =>
    intro st
    rw [List.map_cons, List.foldl_cons, process_line_hash, ih]
    have : st.line_number + 1 + rest.length = st.line_number + (rest.length + 1) := by
      omega
    simp [this]

/-- Claim C9: for every text, prefixing every line with `#` yields a text on
which the scan succeeds with the empty scope sequence, even when the
original text is unbalanced: braces on comment lines are never pushed and
never treated as closes. -/
theorem commented_text_empty_scopes (t : List Char) :
    finishScan (scanLines (commented_lines t)) = Except.ok [] := by
  unfold commented_lines scanLines
  rw [foldl_hash_lines]
  rfl

/-! ## Unmatched closing braces: claim C5 -/

/-- One character preserves the coupling between the scan state and the
height/underflow tracker. -/
theorem cpl_dstep (st : ScanState) (hf : Nat × Bool) (c : Char) (h : Cpl st hf) :
    Cpl (process_char st c) (dstep hf c) := by
  obtain ⟨h1, h2, h3⟩ := h
  by_cases hc1 : c = lbrace
  · simp only [process_char, dstep, if_pos hc1]
    exact ⟨by simp [h1], h2, h3⟩
  · by_cases hc2 : c = rbrace
    · cases hst : st.init_scopes with
      | nil =>
        have h10 : hf.1 = 0 := by rw [h1, hst]; rfl
        simp only [process_char, dstep, if_neg hc1, if_pos hc2, hst]
        refine ⟨by simp [h10], fun _ => rfl, Or.inr rfl⟩
      | cons s0 rest =>
        have h1' : hf.1 = rest.length + 1 := by rw [h1, hst]; rfl
        have hdec : decide (hf.1 = 0) = false := by simp [h1']
        simp only [process_char, dstep, if_neg hc1, if_pos hc2, hst]
        refine ⟨by simp [h1'], ?_, h3⟩
        intro hh
        rw [hdec, Bool.or_false] at hh
        exact h2 hh
    · have hp : process_char st c = st := by
        simp [process_char, if_neg hc1, if_neg hc2]
      have hd : dstep hf c = hf := by
        simp [dstep, if_neg hc1, if_neg hc2]
      rw [hp, hd]
      exact ⟨h1, h2, h3⟩

/-- A whole character stream preserves the coupling. -/
theorem cpl_foldl_dstep (cs : List Char) :
    ∀ (st : ScanState) (hf : Nat × Bool), Cpl st hf →
      Cpl (cs.foldl process_char st) (cs.foldl dstep hf) := by
  induction cs with
  | nil => intro st hf h; exact h
  | cons c cs ih => intro st hf h; exact ih _ _ (cpl_dstep _ _ _ h)

/-- Advancing the line counter preserves the coupling. -/
theorem cpl_bump (st : ScanState) (hf : Nat × Bool) (h : Cpl st hf) :
    Cpl { st with line_number := st.line_number + 1 } hf := h

/-- One line preserves the coupling. -/
theorem cpl_dline (st : ScanState) (hf : Nat × Bool) (line : List Char)
    (h : Cpl st hf) : Cpl (process_line st line) (dline hf line) := by
  unfold process_line dline
  cases hd : line.dropWhile rust_is_whitespace with
  | nil => exact h
  | cons c cs =>
    by_cases hu : c.utf8Size = 1
    · by_cases hc : c = '#'
      · simp only [if_pos hu, if_pos hc]
        exact cpl_bump _ _ h
      · simp only [if_pos hu, if_neg hc]
        exact cpl_bump _ _ (cpl_foldl_dstep line _ _ h)
    · simp only [if_neg hu]
      exact h

/-- A whole line list preserves the coupling. -/
theorem cpl_foldl_dline (ls : List (List Char)) :
    ∀ (st : ScanState) (hf : Nat × Bool), Cpl st hf →
      Cpl (ls.foldl process_line st) (ls.foldl dline hf) := by
  induction ls with
  | nil => intro st hf h; exact h
  | cons l ls ih => intro st hf h; exact ih _ _ (cpl_dline _ _ _ h)

/-- When some `}` underflows, the scan ends with the `"Unmatched "` failure
recorded. -/
theorem scan_failure_of_underflows (t : List Char) (h : underflows t = true) :
    (scanLines (rustLines t)).failure = some "Unmatched " := by
  have h0 : Cpl initState (0, false) :=
    ⟨rfl, fun hh => absurd hh (by decide), Or.inl rfl⟩
  have hc := cpl_foldl_dline (rustLines t) initState (0, false) h0
  obtain ⟨_, h2, h3⟩ := hc
  unfold underflows at h
  have hsome := h2 h
  cases h3 with
  | inl hnone =>
    rw [hnone] at hsome
    cases hsome
  | inr hum => exact hum

/-- Counterexample to claim C5: the text `"}\n{"` contains a non-comment `}`
met with no pending `{`, yet `process_scopes` does not fail with
`"Unmatched "`: the failure is overwritten by the unterminated-scope error
of the `{` on line 1. -/
theorem underflow_error_overwritten :
    underflows [rbrace, '\n', lbrace] = true ∧
      process_scopes [rbrace, '\n', lbrace] = Except.error "Scope Parse Failed" ∧
      process_scopes [rbrace, '\n', lbrace] ≠ Except.error "Unmatched " := by
  refine ⟨by decide, by decide, by decide⟩

/-- Claim C5 (amended): on every text containing, on a processed non-comment
line, a `}` encountered while no opening brace is pending, `process_scopes`
fails — with `"Unmatched "`, or with `"Scope Parse Failed"` when unresolved
opening braces also remain; it does not stop at the offending brace. -/
theorem underflow_always_errors (t : List Char) (h : underflows t = true) :
    process_scopes t = Except.error "Unmatched " ∨
      process_scopes t = Except.error "Scope Parse Failed" := by
  have hf := scan_failure_of_underflows t h
  unfold process_scopes finishScan
  by_cases hn : (scanLines (rustLines t)).inter_scopes.any (fun o => o.isNone) = true
  · right
    simp [hn]
  · left
    simp [hn, hf]

/-- Witness for C5's amended claim at the single-character text `"}"`. -/
theorem underflow_always_errors_witness :
    underflows [rbrace] = true ∧
      (process_scopes [rbrace] = Except.error "Unmatched " ∨
        process_scopes [rbrace] = Except.error "Scope Parse Failed") :=
  ⟨by decide, underflow_always_errors [rbrace] (by decide)⟩

/-! ## List helpers for the balanced-input invariant (claim C2) -/

/-- The `split_off`/`pop_front`/`push_front`/`append` splice of
`process_scopes` is `List.set` at an in-range index. -/
theorem take_cons_drop_eq_set {α : Type} (l : List α) (i : Nat) (v : α)
    (h : i < l.length) : l.take i ++ v :: (l.drop i).tail = l.set i v := by
  induction l generalizing i with
  | nil => simp at h
  | cons a l ih =>
    cases i with
    | zero => simp
    | succ n =>
      simp only [List.take_succ_cons, List.drop_succ_cons, List.set_cons_succ,
        List.cons_append]
      exact congrArg (List.cons a) (ih n (Nat.lt_of_succ_lt_succ h))

/-- Reading back a freshly set in-range slot. -/
theorem getq_set_self {α : Type} (l : List α) (i : Nat) (v : α)
    (h : i < l.length) : (l.set i v).get? i = some v := by
  induction l generalizing i with
  | nil => simp at h
  | cons a l ih =>
    cases i with
    | zero => rfl
    | succ n => exact ih n (Nat.lt_of_succ_lt_succ h)

/-- Setting one slot leaves the count of unresolved slots minus one when the
old slot was unresolved. -/
theorem countNone_set_some (l : List (Option (Nat × Nat))) (i : Nat)
    (p : Nat × Nat) (h : l.get? i = some none) :
    countNone (l.set i (some p)) + 1 = countNone l := by
  induction l generalizing i with
  | nil => exact absurd h (by simp)
  | cons a l ih =>
    cases i with
    | zero =>
      have ha : a = none := by
        have := h
        simp only [List.get?] at this
        exact Option.some.inj this
      subst ha
      simp [countNone, List.countP_cons]
    | succ n =>
      have hn : l.get? n = some none := h
      simp only [List.set_cons_succ, countNone, List.countP_cons]
      have := ih n hn
      unfold countNone at this
      omega

/-- A list with no unresolved slot consists of resolved spans. -/
theorem some_of_countNone_zero (l : List (Option (Nat × Nat)))
    (h : countNone l = 0) : ∀ o ∈ l, ∃ p, o = some p := by
  intro o ho
  have h2 := List.countP_eq_zero.mp h o ho
  cases o with
  | none => exact absurd rfl h2
  | some p => exact ⟨p, rfl⟩

/-- `heightsOk` splits over concatenation. -/
theorem heightsOk_append (a : List Char) :
    ∀ (b : List Char) (h : Nat),
      heightsOk h (a ++ b) = (heightsOk h a && heightsOk (finalHeight h a) b) := by
  induction a with
  | nil => intro b h; simp [heightsOk, finalHeight]
  | cons c cs ih =>
    intro b h
    simp only [List.cons_append, heightsOk, finalHeight, List.append_eq, ih,
      Bool.and_assoc]

/-- `finalHeight` splits over concatenation. -/
theorem finalHeight_append (a : List Char) :
    ∀ (b : List Char) (h : Nat),
      finalHeight h (a ++ b) = finalHeight (finalHeight h a) b := by
  induction a with
  | nil => intro b h; simp [finalHeight]
  | cons c cs ih =>
    intro b h
    simp only [List.cons_append, finalHeight, List.append_eq, ih]

/-- Dropping newlines does not change the number of `{` characters. -/
theorem count_lbrace_filter (t : List Char) :
    (t.filter (fun c => c ≠ '\n')).count lbrace = t.count lbrace := by
  induction t with
  | nil => rfl
  | cons c cs ih =>
    simp only [ne_eq, decide_not] at ih ⊢
    by_cases hc : c = '\n'
    · subst hc
      simp [List.filter_cons, List.count_cons, ih,
        show (('\n' : Char) == lbrace) = false from by decide]
    · simp [List.filter_cons, hc, List.count_cons, ih]

/-- One character preserves the scan invariant (given that a `}` never
meets an empty stack), does not touch the line counter, moves the stack
height by `hstep`, and grows the output slots exactly on `{`. -/
theorem inv_process_char (st : ScanState) (c : Char) (hinv : ScanInv st)
    (hguard : c = rbrace → st.init_scopes ≠ []) :
    ScanInv (process_char st c) ∧
    (process_char st c).line_number = st.line_number ∧
    (process_char st c).init_scopes.length = hstep st.init_scopes.length c ∧
    (process_char st c).inter_scopes.length =
      st.inter_scopes.length + (if c = lbrace then 1 else 0) := by
  obtain ⟨h1, h2, h3, h4, h5, h6⟩ := hinv
  by_cases hc1 : c = lbrace
  · subst hc1
    have hred : process_char st lbrace =
        { st with
          init_scopes := ⟨st.line_number, st.scope_idx⟩ :: st.init_scopes,
          inter_scopes := st.inter_scopes ++ [none],
          scope_idx := st.scope_idx + 1 } := by
      unfold process_char
      rw [if_pos rfl]
    rw [hred]
    refine ⟨⟨h1, ?_, ?_, ?_, ?_, ?_⟩, rfl, ?_, by simp [List.length_append]⟩
    · show st.scope_idx + 1 = (st.inter_scopes ++ [none]).length
      rw [List.length_append, h2]
      rfl
    · intro s hs
      rcases List.mem_cons.mp hs with rfl | hs'
      · refine ⟨?_, ?_, Nat.le_refl _⟩
        · show st.scope_idx < (st.inter_scopes ++ [none]).length
          rw [List.length_append, h2]
          simp
        · show (st.inter_scopes ++ [none]).get? st.scope_idx = some none
          rw [h2]
          exact List.get?_concat_length _ _
      · obtain ⟨ha, hb, hcst⟩ := h3 s hs'
        refine ⟨?_, ?_, hcst⟩
        · show s.idx < (st.inter_scopes ++ [none]).length
          rw [List.length_append]
          exact Nat.lt_of_lt_of_le ha (by simp)
        · show (st.inter_scopes ++ [none]).get? s.idx = some none
          rw [List.get?_append ha]
          exact hb
    · refine List.pairwise_cons.mpr ⟨?_, h4⟩
      intro b hb
      show b.idx < st.scope_idx
      rw [h2]
      exact (h3 b hb).1
    · show countNone (st.inter_scopes ++ [none]) = st.init_scopes.length + 1
      unfold countNone
      rw [List.countP_append]
      unfold countNone at h5
      simp [h5]
    · intro o ho a b heq
      rcases List.mem_append.mp ho with ho' | ho''
      · exact h6 o ho' a b heq
      · have hon : o = none := by simpa using ho''
        subst hon
        exact Option.noConfusion heq
    · show st.init_scopes.length + 1 = hstep st.init_scopes.length lbrace
      simp [hstep]
  · by_cases hc2 : c = rbrace
    · subst hc2
      have hrl : ¬ ((rbrace : Char) = lbrace) := by decide
      cases hstk : st.init_scopes with
      | nil => exact absurd hstk (hguard rfl)
      | cons s0 rest =>
        have hmem0 : s0 ∈ st.init_scopes := by
          rw [hstk]
          exact List.mem_cons_self _ _
        obtain ⟨hidx, hget, hstart⟩ := h3 s0 hmem0
        have hset :
            st.inter_scopes.take s0.idx ++
                some (s0.start, st.line_number) ::
                  (st.inter_scopes.drop s0.idx).tail =
              st.inter_scopes.set s0.idx (some (s0.start, st.line_number)) :=
          take_cons_drop_eq_set _ _ _ hidx
        have hred : process_char st rbrace =
            { st with
              init_scopes := rest,
              inter_scopes :=
                st.inter_scopes.set s0.idx (some (s0.start, st.line_number)) } := by
          unfold process_char
          rw [if_neg hrl, if_pos rfl, hstk, ← hset]
        have hPW : List.Pairwise (fun a b => b.idx < a.idx) (s0 :: rest) := by
          rw [← hstk]
          exact h4
        obtain ⟨hlt, hPW'⟩ := List.pairwise_cons.mp hPW
        have h3' : ∀ s ∈ rest, StackEntryOk st s := by
          intro s hs
          refine h3 s ?_
          rw [hstk]
          exact List.mem_cons_of_mem _ hs
        have hlen : st.init_scopes.length = rest.length + 1 := by
          rw [hstk]
          rfl
        rw [hred]
        refine ⟨⟨h1, ?_, ?_, hPW', ?_, ?_⟩, rfl, ?_, ?_⟩
        · show st.scope_idx =
            (st.inter_scopes.set s0.idx (some (s0.start, st.line_number))).length
          rw [List.length_set]
          exact h2
        · intro s hs
          obtain ⟨ha, hb, hcst⟩ := h3' s hs
          refine ⟨?_, ?_, hcst⟩
          · show s.idx <
              (st.inter_scopes.set s0.idx (some (s0.start, st.line_number))).length
            rw [List.length_set]
            exact ha
          · show (st.inter_scopes.set s0.idx
                (some (s0.start, st.line_number))).get? s.idx = some none
            rw [List.get?_set_ne _ _ (Nat.ne_of_gt (hlt s hs))]
            exact hb
        · show countNone
              (st.inter_scopes.set s0.idx (some (s0.start, st.line_number))) =
            rest.length
          have hcs := countNone_set_some st.inter_scopes s0.idx
            (s0.start, st.line_number) hget
          rw [hlen] at h5
          omega
        · intro o ho a b heq
          rcases List.mem_or_eq_of_mem_set ho with hmem | hov
          · exact h6 o hmem a b heq
          · subst hov
            have hab := Option.some.inj heq
            have ha : s0.start = a := congrArg Prod.fst hab
            have hb : st.line_number = b := congrArg Prod.snd hab
            subst ha
            subst hb
            exact hstart
        · show rest.length = hstep (s0 :: rest).length rbrace
          simp [hstep, hrl]
        · show (st.inter_scopes.set s0.idx
              (some (s0.start, st.line_number))).length =
            st.inter_scopes.length + if (rbrace : Char) = lbrace then 1 else 0
          rw [List.length_set, if_neg hrl]
          rfl
    · have hp : process_char st c = st := by
        simp [process_char, if_neg hc1, if_neg hc2]
      rw [hp]
      exact ⟨⟨h1, h2, h3, h4, h5, h6⟩, rfl, by simp [hstep, hc1, hc2],
        by simp [hc1]⟩

/-- A character stream with no underflow preserves the invariant; the stack
height follows `finalHeight` and the output length counts the `{`s. -/
theorem inv_foldl_char (cs : List Char) :
    ∀ st : ScanState, ScanInv st →
      heightsOk st.init_scopes.length cs = true →
      ScanInv (cs.foldl process_char st) ∧
      (cs.foldl process_char st).line_number = st.line_number ∧
      (cs.foldl process_char st).init_scopes.length =
        finalHeight st.init_scopes.length cs ∧
      (cs.foldl process_char st).inter_scopes.length =
        st.inter_scopes.length + cs.count lbrace := by
  induction cs with
  | nil => intro st hinv _; exact ⟨hinv, rfl, rfl, rfl⟩
  | cons c cs ih =>
    intro st hinv hH
    have hH0 : ((if c = rbrace then decide (0 < st.init_scopes.length) else true) &&
        heightsOk (hstep st.init_scopes.length c) cs) = true := hH
    rw [Bool.and_eq_true] at hH0
    obtain ⟨hg, hH'⟩ := hH0
    have hguard : c = rbrace → st.init_scopes ≠ [] := by
      intro hc he
      rw [if_pos hc, he] at hg
      exact absurd hg (by decide)
    obtain ⟨hinv1, hln1, hstk1, hint1⟩ := inv_process_char st c hinv hguard
    obtain ⟨ihinv, ihln, ihstk, ihint⟩ :=
      ih (process_char st c) hinv1 (by rw [hstk1]; exact hH')
    refine ⟨ihinv, ?_, ?_, ?_⟩
    · show (cs.foldl process_char (process_char st c)).line_number = st.line_number
      rw [ihln, hln1]
    · show (cs.foldl process_char (process_char st c)).init_scopes.length =
        finalHeight st.init_scopes.length (c :: cs)
      rw [ihstk, hstk1]
      rfl
    · show (cs.foldl process_char (process_char st c)).inter_scopes.length =
        st.inter_scopes.length + (c :: cs).count lbrace
      rw [ihint, hint1, List.count_cons]
      by_cases hc : c = lbrace
      · subst hc
        simp only [if_pos rfl, beq_self_eq_true, if_true]
        omega
      · simp only [if_neg hc, beq_iff_eq, hc, if_false]
        omega

/-- Advancing the line counter preserves the invariant. -/
theorem inv_bump (st : ScanState) (h : ScanInv st) :
    ScanInv { st with line_number := st.line_number + 1 } := by
  obtain ⟨h1, h2, h3, h4, h5, h6⟩ := h
  refine ⟨h1, h2, ?_, h4, h5, h6⟩
  intro s hs
  obtain ⟨ha, hb, hc⟩ := h3 s hs
  exact ⟨ha, hb, Nat.le_succ_of_le hc⟩

/-- A brace character is not whitespace, occupies one byte and is not the
comment marker. -/
theorem brace_char_facts (c : Char) (h : c = lbrace ∨ c = rbrace) :
    rust_is_whitespace c = false ∧ c.utf8Size = 1 ∧ c ≠ '#' := by
  rcases h with rfl | rfl
  · exact ⟨by decide, by decide, by decide⟩
  · exact ⟨by decide, by decide, by decide⟩

/-- A brace-only line with no underflow preserves the invariant and the two
length accounts. -/
theorem inv_process_line (st : ScanState) (line : List Char) (hinv : ScanInv st)
    (hl : lineBraces line = true)
    (hH : heightsOk st.init_scopes.length line = true) :
    ScanInv (process_line st line) ∧
    (process_line st line).init_scopes.length =
      finalHeight st.init_scopes.length line ∧
    (process_line st line).inter_scopes.length =
      st.inter_scopes.length + line.count lbrace := by
  cases line with
  | nil => exact ⟨hinv, rfl, rfl⟩
  | cons c cs =>
    have hc : c = lbrace ∨ c = rbrace := by
      have hx := (List.all_eq_true.mp hl) c (List.mem_cons_self _ _)
      simpa using hx
    obtain ⟨hw, hu, hh⟩ := brace_char_facts c hc
    have hred : process_line st (c :: cs) =
        { (c :: cs).foldl process_char st with
          line_number := ((c :: cs).foldl process_char st).line_number + 1 } := by
      simp [process_line, List.dropWhile_cons, hw, hu, hh]
    rw [hred]
    obtain ⟨hinv1, hln1, hstk1, hint1⟩ := inv_foldl_char (c :: cs) st hinv hH
    exact ⟨inv_bump _ hinv1, hstk1, hint1⟩

/-- A list of brace-only lines whose concatenation never underflows
preserves the invariant; heights and counts accumulate over the
concatenation. -/
theorem inv_foldl_line (ls : List (List Char)) :
    ∀ st : ScanState, ScanInv st → ls.all lineBraces = true →
      heightsOk st.init_scopes.length ls.flatten = true →
      ScanInv (ls.foldl process_line st) ∧
      (ls.foldl process_line st).init_scopes.length =
        finalHeight st.init_scopes.length ls.flatten ∧
      (ls.foldl process_line st).inter_scopes.length =
        st.inter_scopes.length + ls.flatten.count lbrace := by
  induction ls with
  | nil => intro st hinv _ _; exact ⟨hinv, rfl, rfl⟩
  | cons l ls ih =>
    intro st hinv hall hH
    rw [List.flatten_cons, heightsOk_append] at hH
    rw [Bool.and_eq_true] at hH
    obtain ⟨hH1, hH2⟩ := hH
    rw [List.all_cons, Bool.and_eq_true] at hall
    obtain ⟨hl1, hlall⟩ := hall
    obtain ⟨hinv1, hstk1, hint1⟩ := inv_process_line st l hinv hl1 hH1
    obtain ⟨ihinv, ihstk, ihint⟩ :=
      ih (process_line st l) hinv1 hlall (by rw [hstk1]; exact hH2)
    refine ⟨ihinv, ?_, ?_⟩
    · show (ls.foldl process_line (process_line st l)).init_scopes.length = _
      rw [ihstk, hstk1, List.flatten_cons, finalHeight_append]
    · show (ls.foldl process_line (process_line st l)).inter_scopes.length = _
      rw [ihint, hint1, List.flatten_cons, List.count_append]
      omega

/-- On a braces-and-newlines text, `splitFrags` yields brace-only fragments
whose concatenation is the text with newlines removed. -/
theorem splitFrags_spec (t : List Char) (ht : onlyBraceNl t = true) :
    (∀ c ∈ (splitFrags t).1, c = lbrace ∨ c = rbrace) ∧
    (∀ l ∈ (splitFrags t).2, ∀ c ∈ l, c = lbrace ∨ c = rbrace) ∧
    (splitFrags t).1 ++ (splitFrags t).2.flatten =
      t.filter (fun c => c ≠ '\n') := by
  induction t with
  | nil => exact ⟨by simp [splitFrags], by simp [splitFrags], rfl⟩
  | cons c cs ih =>
    have hc : c = lbrace ∨ c = rbrace ∨ c = '\n' := by
      have hx := (List.all_eq_true.mp ht) c (List.mem_cons_self _ _)
      simpa [or_assoc] using hx
    have ht' : onlyBraceNl cs = true := by
      unfold onlyBraceNl at ht ⊢
      rw [List.all_cons, Bool.and_eq_true] at ht
      exact ht.2
    obtain ⟨ih1, ih2, ih3⟩ := ih ht'
    rcases hc with hc | hc | hc
    · have hne : ¬ (c = '\n') := by rw [hc]; decide
      have hred : splitFrags (c :: cs) =
          (c :: (splitFrags cs).1, (splitFrags cs).2) := by
        simp [splitFrags, hne]
      rw [hred]
      refine ⟨?_, ih2, ?_⟩
      · intro x hx
        rcases List.mem_cons.mp hx with rfl | hx'
        · exact Or.inl hc
        · exact ih1 x hx'
      · rw [List.cons_append, ih3, List.filter_cons, if_pos (by simpa using hne)]
    · have hne : ¬ (c = '\n') := by rw [hc]; decide
      have hred : splitFrags (c :: cs) =
          (c :: (splitFrags cs).1, (splitFrags cs).2) := by
        simp [splitFrags, hne]
      rw [hred]
      refine ⟨?_, ih2, ?_⟩
      · intro x hx
        rcases List.mem_cons.mp hx with rfl | hx'
        · exact Or.inr hc
        · exact ih1 x hx'
      · rw [List.cons_append, ih3, List.filter_cons, if_pos (by simpa using hne)]
    · subst hc
      have hred : splitFrags ('\n' :: cs) =
          ([], (splitFrags cs).1 :: (splitFrags cs).2) := by
        simp [splitFrags]
      rw [hred]
      refine ⟨by simp, ?_, ?_⟩
      · intro l hl
        rcases List.mem_cons.mp hl with rfl | hl'
        · exact ih1
        · exact ih2 l hl'
      · rw [List.nil_append, List.flatten_cons, ih3, List.filter_cons,
          if_neg (by simp)]

/-- `stripCr` does nothing to a brace-only fragment. -/
theorem stripCr_braces (h : List Char)
    (hh : ∀ c ∈ h, c = lbrace ∨ c = rbrace) : stripCr h = h := by
  unfold stripCr
  cases hg : h.getLast? with
  | none => rw [if_neg (by simp)]
  | some a =>
    have ha : a ∈ h := by
      obtain ⟨ys, hys⟩ := List.getLast?_eq_some_iff.mp hg
      rw [hys]
      simp
    rcases hh a ha with h1 | h1 <;>
      · subst h1
        rw [if_neg (by simp; decide)]

/-- Reassembling brace-only fragments yields brace-only lines whose
concatenation is the concatenation of the fragments. -/
theorem joinFrags_spec (r : List (List Char)) :
    ∀ h : List Char, (∀ c ∈ h, c = lbrace ∨ c = rbrace) →
      (∀ l ∈ r, ∀ c ∈ l, c = lbrace ∨ c = rbrace) →
      (joinFrags h r).flatten = h ++ r.flatten ∧
      (joinFrags h r).all lineBraces = true := by
  induction r with
  | nil =>
    intro h hh _
    by_cases he : h = []
    · subst he
      exact ⟨rfl, rfl⟩
    · constructor
      · simp [joinFrags, he]
      · have : lineBraces h = true := by
          rw [lineBraces, List.all_eq_true]
          intro c hcm
          rcases hh c hcm with h1 | h1 <;> simp [h1]
        simp [joinFrags, he, this]
  | cons h2 rest ih =>
    intro h hh hr
    have hh2 : ∀ c ∈ h2, c = lbrace ∨ c = rbrace :=
      hr h2 (List.mem_cons_self _ _)
    have hr' : ∀ l ∈ rest, ∀ c ∈ l, c = lbrace ∨ c = rbrace :=
      fun l hl => hr l (List.mem_cons_of_mem _ hl)
    obtain ⟨ihf, iha⟩ := ih h2 hh2 hr'
    have hstrip : stripCr h = h := stripCr_braces h hh
    constructor
    · show (stripCr h :: joinFrags h2 rest).flatten = h ++ (h2 :: rest).flatten
      rw [List.flatten_cons, hstrip, ihf, List.flatten_cons]
    · show (stripCr h :: joinFrags h2 rest).all lineBraces = true
      rw [List.all_cons, Bool.and_eq_true]
      refine ⟨?_, iha⟩
      rw [hstrip, lineBraces, List.all_eq_true]
      intro c hcm
      rcases hh c hcm with h1 | h1 <;> simp [h1]

/-- On a braces-and-newlines text, `rustLines` yields brace-only lines whose
concatenation is the text without its newlines. -/
theorem rustLines_spec (t : List Char) (ht : onlyBraceNl t = true) :
    (rustLines t).all lineBraces = true ∧
    (rustLines t).flatten = t.filter (fun c => c ≠ '\n') := by
  cases t with
  | nil => exact ⟨rfl, rfl⟩
  | cons c cs =>
    obtain ⟨h1, h2, h3⟩ := splitFrags_spec (c :: cs) ht
    obtain ⟨jf, ja⟩ :=
      joinFrags_spec (splitFrags (c :: cs)).2 (splitFrags (c :: cs)).1 h1 h2
    refine ⟨ja, ?_⟩
    show (joinFrags (splitFrags (c :: cs)).1 (splitFrags (c :: cs)).2).flatten = _
    rw [jf, h3]

/-- The initial state satisfies the scan invariant. -/
theorem ScanInv_init : ScanInv initState := by
  refine ⟨rfl, rfl, ?_, List.Pairwise.nil, rfl, ?_⟩
  · intro s hs
    exact absurd hs (List.not_mem_nil s)
  · intro o ho
    exact absurd ho (List.not_mem_nil o)

/-- Claim C2: on every text consisting only of balanced, non-comment
`{`/`}` pairs (and newlines), `process_scopes` succeeds, returns exactly one
span per `{` in the text, and every span satisfies `start ≤ end`. -/
theorem balanced_braces_scopes (t : List Char)
    (h1 : onlyBraceNl t = true) (h2 : balancedBraces t = true) :
    ∃ spans, process_scopes t = Except.ok spans ∧
      spans.length = t.count lbrace ∧ ∀ p ∈ spans, p.1 ≤ p.2 := by
  unfold balancedBraces at h2
  rw [Bool.and_eq_true] at h2
  obtain ⟨hOk, hFin⟩ := h2
  have hFin' : finalHeight 0 (t.filter (fun c => c ≠ '\n')) = 0 :=
    of_decide_eq_true hFin
  obtain ⟨hall, hflat⟩ := rustLines_spec t h1
  have hOk' : heightsOk initState.init_scopes.length (rustLines t).flatten
      = true := by
    rw [hflat]
    exact hOk
  obtain ⟨hinv, hstk, hint⟩ :=
    inv_foldl_line (rustLines t) initState ScanInv_init hall hOk'
  obtain ⟨f1, f2, f3, f4, f5, f6⟩ := hinv
  have hstk0 : ((rustLines t).foldl process_line initState).init_scopes.length
      = 0 := by
    rw [hstk]
    show finalHeight 0 (rustLines t).flatten = 0
    rw [hflat]
    exact hFin'
  have hcz :
      countNone ((rustLines t).foldl process_line initState).inter_scopes
        = 0 := by
    rw [f5, hstk0]
  have hnone := some_of_countNone_zero _ hcz
  have hany : ((rustLines t).foldl process_line initState).inter_scopes.any
      (fun o => o.isNone) = false := by
    rw [List.any_eq_false]
    intro o ho
    obtain ⟨p, rfl⟩ := hnone o ho
    simp
  refine ⟨((rustLines t).foldl process_line initState).inter_scopes.map
    (fun o => o.getD (0, 0)), ?_, ?_, ?_⟩
  · show finishScan ((rustLines t).foldl process_line initState) = _
    unfold finishScan
    rw [hany, f1]
    rfl
  · rw [List.length_map, hint, hflat, count_lbrace_filter]
    show 0 + t.count lbrace = t.count lbrace
    omega
  · intro p hp
    obtain ⟨o, ho, hop⟩ := List.mem_map.mp hp
    obtain ⟨q, rfl⟩ := hnone o ho
    have hqp : q = p := hop
    subst hqp
    exact f6 (some q) ho q.1 q.2 (by rw [Prod.mk.eta])

/-- Witness for claim C2 at the text `"{}"`. -/
theorem balanced_braces_scopes_witness :
    onlyBraceNl [lbrace, rbrace] = true ∧
      balancedBraces [lbrace, rbrace] = true ∧
      ∃ spans, process_scopes [lbrace, rbrace] = Except.ok spans ∧
        spans.length = List.count lbrace [lbrace, rbrace] ∧
        ∀ p ∈ spans, p.1 ≤ p.2 :=
  ⟨by decide, by decide,
    balanced_braces_scopes [lbrace, rbrace] (by decide) (by decide)⟩
